import Mathlib

/-
Verification development for the exocortex markup AST pipeline.

Embedded source:
  * src/sites/admin/src/interface/ast.ts - the node loader (ASTNode.loadNode,
    ASTNode.registerNode), the document assembler (DocumentNode constructor,
    Stack class) and the node variants (HeadingNode, DirectiveNode,
    DirectiveOptionNode, ParagraphNode, TextNode, BlankLineNode,
    InternalLinkNode).
  * src/unnamed/part_000 - the grammar file; only its terminal layer
    (RESERVED_PUNCTUATION, ESCAPE with priority 1, the triple-backtick raw
    fence with priority 5) is needed here.

Modelling conventions:
  * JS numbers used as heading levels are modelled as Int; fields that may be
    absent on a flat object (level, directive_type, directive, option, value)
    are modelled as Option.
  * TS class fields declared in a subclass without an initializer keep the
    base-class value (legacy TS field emission): DocumentNode.children starts
    as the inherited empty array.
  * Mutation is modelled with an explicit store of frames: only nodes that can
    sit on the assembly stack (the document root, loaded heading nodes and
    loaded document nodes - exactly the nodes with a defined level) are ever
    mutated after construction, so they live in the store and are referenced
    by index, while all other loaded nodes are plain immutable values.
  * The JS array-backed Stack (push/pop at the end, top = last element) is
    modelled as a Lean list with the top at the head.
-/

-- ===================================================================
-- Lexical layer (from src/unnamed/part_000)
-- ===================================================================

/-- The backtick character, written via its code point. -/
def backtick : Char := Char.ofNat 96

/-- RESERVED_PUNCTUATION: "#" | "*" | "_" | "+" | "\\" | "`" | "/" -/
def RESERVED_PUNCTUATION : List Char := ['#', '*', '_', '+', '\\', backtick, '/']

/-- Tokens relevant to lexing a backtick-initial sequence: the raw fence
(_RAW, priority 5) and ESCAPE (priority 1, backtick + reserved punctuation). -/
inductive Tok : Type where
  | rawFence : Tok
  | escape (c : Char) : Tok
deriving DecidableEq

/-- Does the input start with the triple-backtick raw fence marker? -/
def isTripleFence : List Char → Bool
  | c0 :: c1 :: c2 :: _ => c0 = backtick && c1 = backtick && c2 = backtick
  | _ => false

/-- Lex one token at a backtick-initial position, honouring terminal
priorities from the grammar: _RAW.5 ("```") is tried before ESCAPE.1
("`" RESERVED_PUNCTUATION).  Returns the token, the number of source
characters consumed, and the remaining input. -/
def lexBacktick (s : List Char) : Option (Tok × Nat × List Char) :=
  if isTripleFence s then some (.rawFence, 3, s.drop 3)
  else
    match s with
    | c0 :: c1 :: rest =>
        if c0 = backtick && c1 ∈ RESERVED_PUNCTUATION then
          some (.escape c1, 2, rest)
        else none
    | _ => none

-- ===================================================================
-- Flat parse nodes (the ASTObject interface of ast.ts)
-- ===================================================================

mutual
/-- ASTObject: a flat parse node with an element tag and children; the extra
fields of the intersection types used by the node constructors (level,
directive_type, directive, option, value) are carried as optional fields. -/
inductive ASTObject : Type where
  | mk (element : String) (children : List ASTChild) (level : Option Int)
       (directive_type : Option String) (directive : Option String)
       (option : Option String) (value : Option String) : ASTObject

/-- A child of a flat parse node is either a literal string or a nested
flat parse node (Array<string|ASTObject>). -/
inductive ASTChild : Type where
  | str (s : String) : ASTChild
  | node (o : ASTObject) : ASTChild
end

def ASTObject.element : ASTObject → String
  | .mk e _ _ _ _ _ _ => e

def ASTObject.children : ASTObject → List ASTChild
  | .mk _ cs _ _ _ _ _ => cs

def ASTObject.level : ASTObject → Option Int
  | .mk _ _ l _ _ _ _ => l

-- ===================================================================
-- Loaded AST nodes
-- ===================================================================

/-- A loaded AST node: one constructor per registered node class of ast.ts
plus the base-class fallback (default node).  Every class owns a children
array (empty unless the constructor fills it or the assembler mutates it). -/
inductive Node : Type where
  | document (preamble : List Node) (children : List Node) : Node
  | heading (level : Option Int) (label : List Node) (children : List Node) : Node
  | directiveBlock (directiveType : Option String) (directive : Option String)
      (options : List (String × String)) (children : List Node) : Node
  | directiveOption (key : Option String) (value : Option String)
      (children : List Node) : Node
  | paragraph (children : List Node) : Node
  | rawText (text : List ASTChild) (children : List Node) : Node
  | blankLine (children : List Node) : Node
  | internalLink (children : List Node) : Node
  | defaultNode (children : List Node) : Node

/-- The typename recorded by loadNode: the registered tag for a registered
constructor, the fixed sentinel for the base-class fallback. -/
def Node.typename : Node → String
  | .document _ _ => "document"
  | .heading _ _ _ => "heading"
  | .directiveBlock _ _ _ _ => "directive_block"
  | .directiveOption _ _ _ => "directive_option"
  | .paragraph _ => "paragraph"
  | .rawText _ _ => "raw_text"
  | .blankLine _ => "blank_line"
  | .internalLink _ => "internal_link"
  | .defaultNode _ => "default_node"

/-- The level property of a loaded node: DocumentNode has the constant getter
0, HeadingNode has the level copied from the flat object, every other class
leaves it undefined. -/
def nodeLevel : Node → Option Int
  | .document _ _ => some 0
  | .heading l _ _ => l
  | _ => none

/-- isHeader from ast.ts: node.level is defined. -/
def isHeaderN (n : Node) : Bool := (nodeLevel n).isSome

/-- instanceof DirectiveOptionNode. -/
def isDirectiveOptionNode : Node → Bool
  | .directiveOption _ _ _ => true
  | _ => false

/-- DirectiveOptionNode.key (this.key = obj.option). -/
def Node.dKey : Node → Option String
  | .directiveOption k _ _ => k
  | _ => none

/-- DirectiveOptionNode.value (this.value = obj.value). -/
def Node.dValue : Node → Option String
  | .directiveOption _ v _ => v
  | _ => none

/-- Insert a key/value pair as Object property assignment does: overwrite in
place if the key exists, otherwise append. -/
def setEntry (m : List (String × String)) (k v : String) : List (String × String) :=
  if m.any (fun p => p.1 = k) then
    m.map (fun p => if p.1 = k then (k, v) else p)
  else m ++ [(k, v)]

/-- Object.fromEntries: build the mapping in list order (later duplicates
overwrite earlier ones). -/
def fromEntries (l : List (String × String)) : List (String × String) :=
  l.foldl (fun m kv => setEntry m kv.1 kv.2) []

-- ===================================================================
-- The document assembler state
-- ===================================================================

/-- An entry of a frame's preamble/children array: either an immutable loaded
node, or a reference to another frame of the same assembly (the JS arrays
store object references, so a heading recorded in a parent keeps mutating
after being recorded). -/
inductive Entry : Type where
  | node (n : Node) : Entry
  | ref (i : Nat) : Entry

/-- A mutable node of one document assembly: the document root or a loaded
node with a defined level (a HeadingNode, or a nested DocumentNode).  The
init fields carry the arrays the node already owned when it entered the
assembly; pre/body collect what sendChild appends afterwards. -/
structure Frame : Type where
  isDoc : Bool
  lvl : Int
  label : List Node
  initPre : List Node
  initChildren : List Node
  pre : List Entry
  body : List Entry

structure AsmState : Type where
  frames : List Frame
  stack : List Nat

/-- The document root: level 0, empty preamble, empty children (the subclass
field declaration without initializer keeps the inherited empty array). -/
def rootFrame : Frame := ⟨true, 0, [], [], [], [], []⟩

def initState : AsmState := ⟨[rootFrame], [0]⟩

/-- sendChild dispatch on one frame: DocumentNode.sendChild routes headers to
children and everything else to preamble; HeadingNode.sendChild always
appends to children.  isHdr is isHeader(child). -/
def sendFrame (f : Frame) (e : Entry) (isHdr : Bool) : Frame :=
  if f.isDoc then
    if isHdr then { f with body := f.body ++ [e] }
    else { f with pre := f.pre ++ [e] }
  else { f with body := f.body ++ [e] }

/-- headers.top.sendChild(node) on the store: mutate the frame at index i. -/
def sendEntry (frames : List Frame) (i : Nat) (e : Entry) (isHdr : Bool) :
    Option (List Frame) :=
  match frames[i]? with
  | none => none
  | some f => some (frames.set i (sendFrame f e isHdr))

/-- Turn a loaded header node into a frame (lvl is its defined level). -/
def mkFrame (n : Node) (lvl : Int) : Frame :=
  match n with
  | .document pre children => ⟨true, lvl, [], pre, children, [], []⟩
  | .heading _ label children => ⟨false, lvl, label, [], children, [], []⟩
  | _ => ⟨false, lvl, [], [], [], [], []⟩

/-- The pop loop: while (node.level < headers.top.level) headers.pop().
Evaluating the condition on an empty stack dereferences undefined, which is
the only way the assembler can fail. -/
def popLoop (lvl : Int) (frames : List Frame) : List Nat → Option (List Nat)
  | [] => none
  | i :: rest =>
      match frames[i]? with
      | none => none
      | some f => if lvl < f.lvl then popLoop lvl frames rest else some (i :: rest)

/-- One iteration of the DocumentNode constructor's forEach, after the child
has been loaded: headers.top.sendChild(node); then, if the node is a header,
compare levels, pop as needed, and push it. -/
def stepLoaded (st : AsmState) (n : Node) : Option AsmState :=
  match st.stack.head? with
  | none => none
  | some topIdx =>
    match nodeLevel n with
    | some lvl =>
        let newIdx := st.frames.length
        match sendEntry st.frames topIdx (.ref newIdx) true with
        | none => none
        | some frames1 =>
          let frames2 := frames1 ++ [mkFrame n lvl]
          match frames2[topIdx]? with
          | none => none
          | some topF =>
            if lvl > topF.lvl then
              some ⟨frames2, newIdx :: st.stack⟩
            else
              match popLoop lvl frames2 st.stack with
              | none => none
              | some stack' => some ⟨frames2, newIdx :: stack'⟩
    | none =>
        match sendEntry st.frames topIdx (.node n) false with
        | none => none
        | some frames1 => some ⟨frames1, st.stack⟩

/-- Read a frame back as a loaded node once its entries are resolved. -/
def finalizeNode (f : Frame) (pre body : List Node) : Node :=
  if f.isDoc then .document (f.initPre ++ pre) (f.initChildren ++ body)
  else .heading (some f.lvl) f.label (f.initChildren ++ body)

mutual
/-- Resolve an entry of a frame array back into a loaded node, chasing frame
references; fuel bounds the chase (references always point to later frames,
so a fuel of frames.length suffices, which is proved below). -/
def resolveEntry (frames : List Frame) : Nat → Entry → Option Node
  | _, .node n => some n
  | 0, .ref _ => none
  | fuel + 1, .ref i =>
      match frames[i]? with
      | none => none
      | some f =>
          match resolveList frames fuel f.pre, resolveList frames fuel f.body with
          | some pre, some body => some (finalizeNode f pre body)
          | _, _ => none
termination_by fuel e => (fuel, sizeOf e)

def resolveList (frames : List Frame) : Nat → List Entry → Option (List Node)
  | _, [] => some []
  | fuel, e :: es =>
      match resolveEntry frames fuel e, resolveList frames fuel es with
      | some n, some ns => some (n :: ns)
      | _, _ => none
termination_by fuel es => (fuel, sizeOf es)
end

-- ===================================================================
-- The node loader (ASTNode.loadNode and the registered constructors)
-- ===================================================================

mutual
/-- ASTNode.loadNode restricted to flat objects: dispatch on the element tag
through the registry populated by the registerNode decorators; an
unregistered tag falls back to the base class.  The DocumentNode branch runs
the assembly loop of its constructor and then reads the finished root back
out of the frame store. -/
def loadNode : ASTObject → Option Node
  | .mk element children level directive_type directive opt val =>
    match element with
    | "document" =>
        match assembleSteps initState children with
        | none => none
        | some st => resolveEntry st.frames (st.frames.length + 1) (.ref 0)
    | "heading" =>
        match loadList children with
        | none => none
        | some label => some (.heading level label [])
    | "directive_block" =>
        -- DirectiveNode never loads obj.children: this.children is still the
        -- inherited empty array when options is computed from it.
        let children0 : List Node := []
        some (.directiveBlock directive_type directive
          (fromEntries ((children0.filter isDirectiveOptionNode).map
            (fun c => (c.dKey.getD "", c.dValue.getD ""))))
          children0)
    | "directive_option" => some (.directiveOption opt val [])
    | "paragraph" =>
        match loadList children with
        | none => none
        | some ns => some (.paragraph ns)
    | "raw_text" => some (.rawText children [])
    | "blank_line" => some (.blankLine [])
    | "internal_link" => some (.internalLink [])
    | _ => some (.defaultNode [])
termination_by o => sizeOf o

/-- Loading one element of a children array: a literal string has no element
property, so the registry lookup misses and the base-class fallback fires. -/
def loadChild : ASTChild → Option Node
  | .str _ => some (.defaultNode [])
  | .node o => loadNode o
termination_by c => sizeOf c

/-- children.map(ASTNode.loadNode) for label/children loading. -/
def loadList : List ASTChild → Option (List Node)
  | [] => some []
  | c :: cs =>
      match loadChild c with
      | none => none
      | some n =>
          match loadList cs with
          | none => none
          | some ns => some (n :: ns)
termination_by cs => sizeOf cs

/-- The forEach loop of the DocumentNode constructor: load each flat child in
order and run one assembly step on it. -/
def assembleSteps : AsmState → List ASTChild → Option AsmState
  | st, [] => some st
  | st, c :: cs =>
      match loadChild c with
      | none => none
      | some n =>
          match stepLoaded st n with
          | none => none
          | some st' => assembleSteps st' cs
termination_by _ cs => sizeOf cs
end

/-- Constructing a DocumentNode from a flat children list (the body of the
DocumentNode constructor followed by reading the finished tree back). -/
def assembleDoc (cs : List ASTChild) : Option Node :=
  match assembleSteps initState cs with
  | none => none
  | some st => resolveEntry st.frames (st.frames.length + 1) (.ref 0)

/-- The registry contents after the registerNode decorators have run. -/
def registeredTags : List String :=
  ["document", "heading", "directive_block", "directive_option",
   "paragraph", "raw_text", "blank_line", "internal_link"]

-- ===================================================================
-- Concrete flat inputs used in scenarios and counterexamples
-- ===================================================================

/-- A flat heading node of the given level whose label is one raw_text run. -/
def flatHeading (lvl : Int) (lbl : String) : ASTObject :=
  .mk "heading" [.node (.mk "raw_text" [.str lbl] none none none none none)]
    (some lvl) none none none none

/-- A flat paragraph node holding one raw_text run. -/
def flatParagraph (t : String) : ASTObject :=
  .mk "paragraph" [.node (.mk "raw_text" [.str t] none none none none none)]
    none none none none none

/-- The loaded form of flatHeading's label. -/
def loadedLabel (lbl : String) : List Node := [.rawText [.str lbl] []]

/-- The loaded form of flatParagraph. -/
def loadedParagraph (t : String) : Node := .paragraph [.rawText [.str t] []]

theorem loadNode_flatHeading (lvl : Int) (lbl : String) :
    loadNode (flatHeading lvl lbl) = some (.heading (some lvl) (loadedLabel lbl) []) := by
  simp [flatHeading, loadNode, loadList, loadChild, loadedLabel]

theorem loadNode_flatParagraph (t : String) :
    loadNode (flatParagraph t) = some (loadedParagraph t) := by
  simp [flatParagraph, loadNode, loadList, loadChild, loadedParagraph]

/-- Scenario B input: the flat children of a document holding two consecutive
level-1 headings. -/
def scenarioB : List ASTChild := [.node (flatHeading 1 "A"), .node (flatHeading 1 "B")]

theorem scenarioB_steps : assembleSteps initState scenarioB =
    some ⟨[⟨true, 0, [], [], [], [], [Entry.ref 1]⟩,
           ⟨false, 1, loadedLabel "A", [], [], [], [Entry.ref 2]⟩,
           ⟨false, 1, loadedLabel "B", [], [], [], []⟩], [2, 1, 0]⟩ := by
  simp [scenarioB, assembleSteps, loadChild, loadNode_flatHeading, stepLoaded, initState,
    rootFrame, sendEntry, sendFrame, nodeLevel, mkFrame, popLoop]

/-- What the code actually produces on Scenario B: B is nested under A. -/
theorem scenarioB_eval : assembleDoc scenarioB =
    some (.document []
      [ .heading (some 1) (loadedLabel "A")
          [ .heading (some 1) (loadedLabel "B") [] ] ]) := by
  rw [assembleDoc, scenarioB_steps]
  simp [resolveEntry, resolveList, finalizeNode]

/-- A flat sequence with two consecutive level-2 headings. -/
def twoH2 : List ASTChild := [.node (flatHeading 2 "X"), .node (flatHeading 2 "Y")]

theorem twoH2_steps : assembleSteps initState twoH2 =
    some ⟨[⟨true, 0, [], [], [], [], [Entry.ref 1]⟩,
           ⟨false, 2, loadedLabel "X", [], [], [], [Entry.ref 2]⟩,
           ⟨false, 2, loadedLabel "Y", [], [], [], []⟩], [2, 1, 0]⟩ := by
  simp [twoH2, assembleSteps, loadChild, loadNode_flatHeading, stepLoaded, initState,
    rootFrame, sendEntry, sendFrame, nodeLevel, mkFrame, popLoop]

theorem twoH2_eval : assembleDoc twoH2 =
    some (.document []
      [ .heading (some 2) (loadedLabel "X")
          [ .heading (some 2) (loadedLabel "Y") [] ] ]) := by
  rw [assembleDoc, twoH2_steps]
  simp [resolveEntry, resolveList, finalizeNode]

/-- Scenario D: the flat directive node produced from ".. note ::" with one
option line "key: value". -/
def scenarioD : ASTObject :=
  .mk "directive_block"
    [.node (.mk "directive_option" [] none none none (some "key") (some "value"))]
    none (some "note") none none none

theorem scenarioD_eval :
    loadNode scenarioD = some (.directiveBlock (some "note") none [] []) := by
  simp [scenarioD, loadNode, fromEntries, isDirectiveOptionNode]

/-- A flat directive with an option child and a paragraph child. -/
def directiveTwoChildren : ASTObject :=
  .mk "directive_block"
    [.node (.mk "directive_option" [] none none none (some "key") (some "value")),
     .node (.mk "paragraph" [.str "p"] none none none none none)]
    none (some "note") none none none

theorem directiveTwoChildren_eval :
    loadNode directiveTwoChildren = some (.directiveBlock (some "note") none [] []) := by
  simp [directiveTwoChildren, loadNode, fromEntries, isDirectiveOptionNode]

/-- A top-level sequence whose first child is tagged "document" and whose
second child is a paragraph. -/
def nestedDocSeq : List ASTChild :=
  [.node (.mk "document" [] none none none none none), .node (flatParagraph "p")]

theorem nestedDocSeq_steps : assembleSteps initState nestedDocSeq =
    some ⟨[⟨true, 0, [], [], [], [], [Entry.ref 1]⟩,
           ⟨true, 0, [], [], [], [Entry.node (loadedParagraph "p")], []⟩], [1, 0]⟩ := by
  simp [nestedDocSeq, assembleSteps, loadChild, loadNode, loadNode_flatParagraph,
    loadedParagraph, stepLoaded, initState, rootFrame, sendEntry, sendFrame, nodeLevel, mkFrame,
    popLoop, resolveEntry, resolveList, finalizeNode]

theorem nestedDocSeq_eval : assembleDoc nestedDocSeq =
    some (.document [] [.document [loadedParagraph "p"] []]) := by
  rw [assembleDoc, nestedDocSeq_steps]
  simp [resolveEntry, resolveList, finalizeNode]

/-- Scenario A input: "# Title\nBody text\n## Sub\nMore\n" as a flat sequence. -/
def scenarioA : List ASTChild :=
  [.node (flatHeading 1 "Title"), .node (flatParagraph "Body text"),
   .node (flatHeading 2 "Sub"), .node (flatParagraph "More")]

theorem scenarioA_steps : assembleSteps initState scenarioA =
    some ⟨[⟨true, 0, [], [], [], [], [Entry.ref 1]⟩,
           ⟨false, 1, loadedLabel "Title", [], [],
             [], [Entry.node (loadedParagraph "Body text"), Entry.ref 2]⟩,
           ⟨false, 2, loadedLabel "Sub", [], [],
             [], [Entry.node (loadedParagraph "More")]⟩], [2, 1, 0]⟩ := by
  simp [scenarioA, assembleSteps, loadChild, loadNode_flatHeading, loadNode_flatParagraph,
    loadedParagraph, loadedLabel, stepLoaded, initState, rootFrame, sendEntry, sendFrame, nodeLevel,
    mkFrame, popLoop]

theorem scenarioA_eval : assembleDoc scenarioA =
    some (.document []
      [ .heading (some 1) (loadedLabel "Title")
          [ loadedParagraph "Body text",
            .heading (some 2) (loadedLabel "Sub") [loadedParagraph "More"] ] ]) := by
  rw [assembleDoc, scenarioA_steps]
  simp [resolveEntry, resolveList, finalizeNode]

-- ===================================================================
-- Assembly invariants
-- ===================================================================

theorem sendFrame_isDoc (f : Frame) (e : Entry) (b : Bool) :
    (sendFrame f e b).isDoc = f.isDoc := by
  unfold sendFrame; split_ifs <;> rfl

theorem sendFrame_lvl (f : Frame) (e : Entry) (b : Bool) :
    (sendFrame f e b).lvl = f.lvl := by
  unfold sendFrame; split_ifs <;> rfl

theorem sendFrame_initChildren (f : Frame) (e : Entry) (b : Bool) :
    (sendFrame f e b).initChildren = f.initChildren := by
  unfold sendFrame; split_ifs <;> rfl

theorem sendFrame_pre_mem {f : Frame} {e x : Entry} {b : Bool}
    (h : x ∈ (sendFrame f e b).pre) : x ∈ f.pre ∨ x = e := by
  unfold sendFrame at h; split_ifs at h <;> simp_all

theorem sendFrame_body_mem {f : Frame} {e x : Entry} {b : Bool}
    (h : x ∈ (sendFrame f e b).body) : x ∈ f.body ∨ x = e := by
  unfold sendFrame at h; split_ifs at h <;> simp_all

theorem sendFrame_doc_hdr {f : Frame} {e : Entry} (hd : f.isDoc = true) :
    sendFrame f e true = { f with body := f.body ++ [e] } := by
  unfold sendFrame; rw [if_pos hd, if_pos rfl]

theorem sendFrame_doc_nonhdr {f : Frame} {e : Entry} (hd : f.isDoc = true) :
    sendFrame f e false = { f with pre := f.pre ++ [e] } := by
  unfold sendFrame; rw [if_pos hd]; simp

theorem sendFrame_nondoc {f : Frame} {e : Entry} {b : Bool} (hd : f.isDoc = false) :
    sendFrame f e b = { f with body := f.body ++ [e] } := by
  unfold sendFrame; rw [if_neg (by simp [hd])]

theorem popLoop_sound {lvl : Int} {frames : List Frame} :
    ∀ {s s' : List Nat}, popLoop lvl frames s = some s' → s' ≠ [] ∧ s' <:+ s := by
  intro s
  induction s with
  | nil => intro s' h; simp [popLoop] at h
  | cons i rest ih =>
      intro s' h
      cases hf : frames[i]? with
      | none => simp only [popLoop, hf] at h; cases h
      | some f =>
          simp only [popLoop, hf] at h
          by_cases hlt : lvl < f.lvl
          · rw [if_pos hlt] at h
            obtain ⟨h1, h2⟩ := ih h
            exact ⟨h1, h2.trans (List.suffix_cons i rest)⟩
          · rw [if_neg hlt] at h
            cases h
            exact ⟨by simp, List.suffix_refl _⟩

/-- Frame store sanity: preamble arrays hold no frame references, and child
references always point to later, existing frames. -/
def framesOk (frames : List Frame) : Prop :=
  ∀ (i : Nat) (f : Frame), frames[i]? = some f →
    (∀ e ∈ f.pre, ∀ j, e ≠ Entry.ref j) ∧
    (∀ j, Entry.ref j ∈ f.body → i < j ∧ j < frames.length)

/-- Document frames record only frame references (headers) in their children
array. -/
def docBodiesRefs (frames : List Frame) : Prop :=
  ∀ (i : Nat) (f : Frame), frames[i]? = some f → f.isDoc = true →
    ∀ e ∈ f.body, ∃ j, e = Entry.ref j

/-- The assembly loop invariant: the stack is never empty, its entries are
valid frame indices, its bottom is the document root (a doc frame at level 0
with no pre-existing children), and the store is sane. -/
structure AsmInv (st : AsmState) : Prop where
  ne : st.stack ≠ []
  valid : ∀ i ∈ st.stack, i < st.frames.length
  lastZero : st.stack.getLast? = some 0
  root : ∃ f, st.frames[0]? = some f ∧ f.isDoc = true ∧ f.lvl = 0 ∧ f.initChildren = []
  good : framesOk st.frames
  docBody : docBodiesRefs st.frames

theorem asmInv_init : AsmInv initState := by
  refine ⟨by simp [initState], ?_, by simp [initState], ?_, ?_, ?_⟩
  · intro i hi
    simp [initState] at hi
    simp [initState, hi]
  · exact ⟨rootFrame, by simp [initState], rfl, rfl, rfl⟩
  · intro i f hf
    cases i with
    | zero =>
        simp [initState] at hf
        subst hf
        constructor <;> simp [rootFrame]
    | succ n => simp [initState] at hf
  · intro i f hf hd
    cases i with
    | zero =>
        simp [initState] at hf
        subst hf
        simp [rootFrame]
    | succ n => simp [initState] at hf

/-- Case analysis on a successful assembly step: the loaded node is handed to
the frame under the stack top; a header is additionally recorded as a new
frame and pushed (after the pop loop when it is not strictly deeper). -/
theorem stepLoaded_cases {st st' : AsmState} {n : Node}
    (h : stepLoaded st n = some st') :
    ∃ topIdx f, st.stack.head? = some topIdx ∧ st.frames[topIdx]? = some f ∧
      ((nodeLevel n = none ∧
          st' = ⟨st.frames.set topIdx (sendFrame f (.node n) false), st.stack⟩) ∨
       (∃ lvl, nodeLevel n = some lvl ∧
          ((f.lvl < lvl ∧
             st' = ⟨st.frames.set topIdx (sendFrame f (.ref st.frames.length) true) ++
                      [mkFrame n lvl],
                    st.frames.length :: st.stack⟩) ∨
           (¬ f.lvl < lvl ∧ ∃ stack',
             popLoop lvl
               (st.frames.set topIdx (sendFrame f (.ref st.frames.length) true) ++
                 [mkFrame n lvl]) st.stack = some stack' ∧
             st' = ⟨st.frames.set topIdx (sendFrame f (.ref st.frames.length) true) ++
                      [mkFrame n lvl],
                    st.frames.length :: stack'⟩)))) := by
  cases hh : st.stack.head? with
  | none =>
      simp only [stepLoaded, hh] at h
      exact Option.noConfusion h
  | some topIdx =>
    cases hft : st.frames[topIdx]? with
    | none =>
        cases hnl : nodeLevel n with
        | none =>
            simp only [stepLoaded, hh, hnl, sendEntry, hft] at h
            exact Option.noConfusion h
        | some lvl =>
            simp only [stepLoaded, hh, hnl, sendEntry, hft] at h
            exact Option.noConfusion h
    | some f =>
        refine ⟨topIdx, f, rfl, hft, ?_⟩
        have hlt : topIdx < st.frames.length := (List.getElem?_eq_some.mp hft).1
        cases hnl : nodeLevel n with
        | none =>
            left
            simp only [stepLoaded, hh, hnl, sendEntry, hft] at h
            exact ⟨rfl, (Option.some.inj h).symm⟩
        | some lvl =>
            right
            refine ⟨lvl, rfl, ?_⟩
            simp only [stepLoaded, hh, hnl, sendEntry, hft] at h
            have h2 : (st.frames.set topIdx
                (sendFrame f (.ref st.frames.length) true) ++
                  [mkFrame n lvl])[topIdx]? =
                some (sendFrame f (.ref st.frames.length) true) := by
              rw [List.getElem?_append_left (by simpa using hlt)]
              exact List.getElem?_set_self (by simpa using hlt)
            simp only [h2, sendFrame_lvl, gt_iff_lt] at h
            by_cases hcmp : f.lvl < lvl
            · left
              rw [if_pos hcmp] at h
              exact ⟨hcmp, (Option.some.inj h).symm⟩
            · right
              rw [if_neg hcmp] at h
              cases hpl : popLoop lvl
                  (st.frames.set topIdx (sendFrame f (.ref st.frames.length) true) ++
                    [mkFrame n lvl]) st.stack with
              | none =>
                  simp only [hpl] at h
                  exact Option.noConfusion h
              | some stack' =>
                  simp only [hpl] at h
                  exact ⟨hcmp, stack', rfl, (Option.some.inj h).symm⟩

theorem mkFrame_pre (n : Node) (lvl : Int) : (mkFrame n lvl).pre = [] := by
  cases n <;> rfl

theorem mkFrame_body (n : Node) (lvl : Int) : (mkFrame n lvl).body = [] := by
  cases n <;> rfl

theorem sendFrame_pre_hdr (f : Frame) (e : Entry) : (sendFrame f e true).pre = f.pre := by
  unfold sendFrame; split_ifs <;> simp_all

theorem sendFrame_body_hdr (f : Frame) (e : Entry) :
    (sendFrame f e true).body = f.body ++ [e] := by
  unfold sendFrame; split_ifs <;> simp_all

theorem getLast?_cons_of_ne_nil {α : Type _} {a : α} {s : List α} (h : s ≠ []) :
    (a :: s).getLast? = s.getLast? := by
  cases s with
  | nil => exact absurd rfl h
  | cons b t => exact List.getLast?_cons_cons

theorem stepLoaded_inv {st st' : AsmState} {n : Node} (hI : AsmInv st)
    (h : stepLoaded st n = some st') : AsmInv st' := by
  obtain ⟨topIdx, f, hh, hft, hcase⟩ := stepLoaded_cases h
  have hlt : topIdx < st.frames.length := (List.getElem?_eq_some.mp hft).1
  obtain ⟨f0, hf0, hf0doc, hf0lvl, hf0init⟩ := hI.root
  rcases hcase with ⟨hnl, rfl⟩ | ⟨lvl, hnl, hcase⟩
  · -- non-header step: the stack is unchanged and the top frame's preamble
    -- or children array grows by one immutable node
    refine ⟨hI.ne, ?_, hI.lastZero, ?_, ?_, ?_⟩
    · intro i hi
      simpa using hI.valid i hi
    · by_cases h0 : topIdx = 0
      · subst h0
        have hff : f0 = f := Option.some.inj (hf0.symm.trans hft)
        subst hff
        refine ⟨sendFrame f0 (.node n) false, ?_, ?_, ?_, ?_⟩
        · have hset : (st.frames.set 0 (sendFrame f0 (.node n) false))[0]? =
              some (sendFrame f0 (.node n) false) := List.getElem?_set_self hlt
          simpa using hset
        · rw [sendFrame_isDoc]; exact hf0doc
        · rw [sendFrame_lvl]; exact hf0lvl
        · rw [sendFrame_initChildren]; exact hf0init
      · refine ⟨f0, ?_, hf0doc, hf0lvl, hf0init⟩
        simpa [List.getElem?_set_ne h0] using hf0
    · intro i fi hfi
      by_cases hit : i = topIdx
      · subst hit
        rw [List.getElem?_set_self hlt] at hfi
        have hfi' : sendFrame f (.node n) false = fi := Option.some.inj hfi
        subst hfi'
        obtain ⟨hpre, hbody⟩ := hI.good i f hft
        constructor
        · intro e he j
          rcases sendFrame_pre_mem he with h1 | h1
          · exact hpre e h1 j
          · subst h1; simp
        · intro j hj
          rcases sendFrame_body_mem hj with h1 | h1
          · have := hbody j h1
            simpa using this
          · simp at h1
      · rw [List.getElem?_set_ne (by omega)] at hfi
        obtain ⟨hpre, hbody⟩ := hI.good i fi hfi
        refine ⟨hpre, ?_⟩
        intro j hj
        have := hbody j hj
        simpa using this
    · intro i fi hfi hdoc e he
      by_cases hit : i = topIdx
      · subst hit
        rw [List.getElem?_set_self hlt] at hfi
        have hfi' : sendFrame f (.node n) false = fi := Option.some.inj hfi
        subst hfi'
        rw [sendFrame_isDoc] at hdoc
        rw [sendFrame_doc_nonhdr hdoc] at he
        exact hI.docBody i f hft hdoc e he
      · rw [List.getElem?_set_ne (by omega)] at hfi
        exact hI.docBody i fi hfi hdoc e he
  · -- header step: one frame grows a child reference, a new frame is
    -- appended, and the new index is pushed (after popping when not deeper)
    have hlen : (st.frames.set topIdx (sendFrame f (.ref st.frames.length) true) ++
        [mkFrame n lvl]).length = st.frames.length + 1 := by
      simp
    have hlook : ∀ (i : Nat) (fi : Frame),
        (st.frames.set topIdx (sendFrame f (.ref st.frames.length) true) ++
          [mkFrame n lvl])[i]? = some fi →
        (i = topIdx ∧ fi = sendFrame f (.ref st.frames.length) true) ∨
        (i ≠ topIdx ∧ i < st.frames.length ∧ st.frames[i]? = some fi) ∨
        (i = st.frames.length ∧ fi = mkFrame n lvl) := by
      intro i fi hfi
      have hiLt : i < st.frames.length + 1 := by
        have := (List.getElem?_eq_some.mp hfi).1
        simpa using this
      by_cases hiL : i < st.frames.length
      · rw [List.getElem?_append_left (by simpa using hiL)] at hfi
        by_cases hit : i = topIdx
        · subst hit
          rw [List.getElem?_set_self hlt] at hfi
          exact Or.inl ⟨rfl, (Option.some.inj hfi).symm⟩
        · rw [List.getElem?_set_ne (by omega)] at hfi
          exact Or.inr (Or.inl ⟨hit, hiL, hfi⟩)
      · have hiEq : i = st.frames.length := by omega
        subst hiEq
        rw [List.getElem?_append_right (by simp)] at hfi
        simp at hfi
        exact Or.inr (Or.inr ⟨rfl, hfi.symm⟩)
    have hroot2 : ∃ g, (st.frames.set topIdx (sendFrame f (.ref st.frames.length) true) ++
        [mkFrame n lvl])[0]? = some g ∧ g.isDoc = true ∧ g.lvl = 0 ∧
        g.initChildren = [] := by
      by_cases h0 : topIdx = 0
      · subst h0
        have hff : f0 = f := Option.some.inj (hf0.symm.trans hft)
        subst hff
        refine ⟨sendFrame f0 (.ref st.frames.length) true, ?_, ?_, ?_, ?_⟩
        · rw [List.getElem?_append_left (by simpa using hlt)]
          have hset : (st.frames.set 0
              (sendFrame f0 (.ref st.frames.length) true))[0]? =
              some (sendFrame f0 (.ref st.frames.length) true) :=
            List.getElem?_set_self hlt
          simpa using hset
        · rw [sendFrame_isDoc]; exact hf0doc
        · rw [sendFrame_lvl]; exact hf0lvl
        · rw [sendFrame_initChildren]; exact hf0init
      · refine ⟨f0, ?_, hf0doc, hf0lvl, hf0init⟩
        rw [List.getElem?_append_left (by simp; omega)]
        simpa [List.getElem?_set_ne h0] using hf0
    have hgood2 : framesOk (st.frames.set topIdx
        (sendFrame f (.ref st.frames.length) true) ++ [mkFrame n lvl]) := by
      intro i fi hfi
      rcases hlook i fi hfi with ⟨hit, rfl⟩ | ⟨hit, hiL, hold⟩ | ⟨hiL, rfl⟩
      · subst hit
        obtain ⟨hpre, hbody⟩ := hI.good i f hft
        constructor
        · intro e he j
          rw [sendFrame_pre_hdr] at he
          exact hpre e he j
        · intro j hj
          rw [sendFrame_body_hdr] at hj
          rw [hlen]
          rcases List.mem_append.mp hj with h1 | h1
          · have := hbody j h1
            omega
          · simp at h1
            have : j = st.frames.length := by
              cases h1
              rfl
            omega
      · obtain ⟨hpre, hbody⟩ := hI.good i fi hold
        refine ⟨hpre, ?_⟩
        intro j hj
        have := hbody j hj
        rw [hlen]
        omega
      · subst hiL
        rw [mkFrame_pre, mkFrame_body]
        constructor
        · intro e he
          simp at he
        · intro j hj
          simp at hj
    have hdoc2 : docBodiesRefs (st.frames.set topIdx
        (sendFrame f (.ref st.frames.length) true) ++ [mkFrame n lvl]) := by
      intro i fi hfi hdoc e he
      rcases hlook i fi hfi with ⟨hit, rfl⟩ | ⟨hit, hiL, hold⟩ | ⟨hiL, rfl⟩
      · rw [sendFrame_body_hdr] at he
        rcases List.mem_append.mp he with h1 | h1
        · rw [sendFrame_isDoc] at hdoc
          exact hI.docBody topIdx f hft hdoc e h1
        · simp at h1
          subst h1
          exact ⟨st.frames.length, rfl⟩
      · exact hI.docBody i fi hold hdoc e he
      · rw [mkFrame_body] at he
        simp at he
    rcases hcase with ⟨hcmp, rfl⟩ | ⟨hcmp, stack', hpl, rfl⟩
    · -- pushed directly (strictly deeper)
      refine ⟨by simp, ?_, ?_, hroot2, hgood2, hdoc2⟩
      · intro i hi
        rw [hlen]
        rcases List.mem_cons.mp hi with rfl | hi'
        · omega
        · have := hI.valid i hi'
          omega
      · rw [getLast?_cons_of_ne_nil hI.ne]
        exact hI.lastZero
    · -- pushed after the pop loop
      obtain ⟨hne', hsuf⟩ := popLoop_sound hpl
      refine ⟨by simp, ?_, ?_, hroot2, hgood2, hdoc2⟩
      · intro i hi
        rw [hlen]
        rcases List.mem_cons.mp hi with rfl | hi'
        · omega
        · have := hI.valid i (hsuf.subset hi')
          omega
      · rw [getLast?_cons_of_ne_nil hne']
        obtain ⟨t, ht⟩ := hsuf
        have := hI.lastZero
        rw [← ht] at this
        rwa [List.getLast?_append_of_ne_nil _ hne'] at this

theorem assembleSteps_inv : ∀ {cs : List ASTChild} {st st' : AsmState}, AsmInv st →
    assembleSteps st cs = some st' → AsmInv st' := by
  intro cs
  induction cs with
  | nil =>
      intro st st' hI h
      simp only [assembleSteps] at h
      exact (Option.some.inj h) ▸ hI
  | cons c cs ih =>
      intro st st' hI h
      simp only [assembleSteps] at h
      cases hl : loadChild c with
      | none => rw [hl] at h; exact Option.noConfusion h
      | some n =>
          simp only [hl] at h
          cases hs : stepLoaded st n with
          | none => simp only [hs] at h; exact Option.noConfusion h
          | some st1 =>
              simp only [hs] at h
              exact ih (stepLoaded_inv hI hs) h

theorem resolveList_isSome (frames : List Frame) (fuel : Nat) :
    ∀ (es : List Entry), (∀ e ∈ es, ∃ n, resolveEntry frames fuel e = some n) →
      ∃ ns, resolveList frames fuel es = some ns := by
  intro es
  induction es with
  | nil => intro _; exact ⟨[], by rw [resolveList]⟩
  | cons e es ih =>
      intro hres
      obtain ⟨n, hn⟩ := hres e (List.mem_cons_self e es)
      obtain ⟨ns, hns⟩ := ih (fun x hx => hres x (List.mem_cons_of_mem e hx))
      refine ⟨n :: ns, ?_⟩
      rw [resolveList, hn, hns]

theorem resolveEntry_node (frames : List Frame) (fuel : Nat) (n : Node) :
    resolveEntry frames fuel (.node n) = some n := by
  cases fuel <;> rw [resolveEntry]

theorem resolveEntry_ref_isSome {frames : List Frame} (hgood : framesOk frames) :
    ∀ (fuel : Nat) (i : Nat), i < frames.length → frames.length - i ≤ fuel →
      ∃ n, resolveEntry frames fuel (.ref i) = some n := by
  intro fuel
  induction fuel with
  | zero => intro i h1 h2; omega
  | succ fuel ih =>
      intro i h1 h2
      obtain ⟨f, hf⟩ : ∃ f, frames[i]? = some f :=
        ⟨frames[i], List.getElem?_eq_getElem h1⟩
      obtain ⟨hpre, hbody⟩ := hgood i f hf
      obtain ⟨pns, hpns⟩ := resolveList_isSome frames fuel f.pre (by
        intro e he
        cases e with
        | node m => exact ⟨m, resolveEntry_node frames fuel m⟩
        | ref j => exact absurd rfl (hpre _ he j))
      obtain ⟨bns, hbns⟩ := resolveList_isSome frames fuel f.body (by
        intro e he
        cases e with
        | node m => exact ⟨m, resolveEntry_node frames fuel m⟩
        | ref j =>
            obtain ⟨hij, hjlen⟩ := hbody j he
            exact ih j hjlen (by omega))
      refine ⟨finalizeNode f pns bns, ?_⟩
      rw [resolveEntry]
      simp only [hf, hpns, hbns]

theorem resolveEntry_ref_shape {frames : List Frame} {fuel : Nat} {i : Nat} {n : Node}
    (h : resolveEntry frames fuel (.ref i) = some n) :
    ∃ f pre body, frames[i]? = some f ∧ n = finalizeNode f pre body ∧
      ∃ fuel', resolveList frames fuel' f.pre = some pre ∧
        resolveList frames fuel' f.body = some body := by
  cases fuel with
  | zero => rw [resolveEntry] at h; exact Option.noConfusion h
  | succ fuel =>
      rw [resolveEntry] at h
      cases hf : frames[i]? with
      | none => rw [hf] at h; exact Option.noConfusion h
      | some f =>
          simp only [hf] at h
          cases hp : resolveList frames fuel f.pre with
          | none => simp only [hp] at h; exact Option.noConfusion h
          | some pre =>
              cases hb : resolveList frames fuel f.body with
              | none => simp only [hp, hb] at h; exact Option.noConfusion h
              | some body =>
                  simp only [hp, hb] at h
                  exact ⟨f, pre, body, rfl, (Option.some.inj h).symm,
                    fuel, hp, hb⟩

theorem finalizeNode_isHeader (f : Frame) (pre body : List Node) :
    isHeaderN (finalizeNode f pre body) = true := by
  unfold finalizeNode
  split_ifs <;> simp [isHeaderN, nodeLevel]

theorem sendFrame_hdr_eq (f : Frame) (e : Entry) :
    sendFrame f e true = { f with body := f.body ++ [e] } := by
  unfold sendFrame; split_ifs <;> simp_all

theorem loadNode_document_eq (cs : List ASTChild) (lv : Option Int)
    (dt dir opt val : Option String) :
    loadNode (.mk "document" cs lv dt dir opt val) = assembleDoc cs := by
  simp only [loadNode, assembleDoc]

theorem assembleDoc_shape {cs : List ASTChild} {nd : Node}
    (h : assembleDoc cs = some nd) :
    ∃ st pre body, assembleSteps initState cs = some st ∧ AsmInv st ∧
      nd = .document pre body := by
  unfold assembleDoc at h
  cases hs : assembleSteps initState cs with
  | none => rw [hs] at h; exact Option.noConfusion h
  | some st =>
      simp only [hs] at h
      have hI : AsmInv st := assembleSteps_inv asmInv_init hs
      obtain ⟨f, pre, body, hf, hnd, _⟩ := resolveEntry_ref_shape h
      obtain ⟨f0, hf0, hdoc, hlvl0, hinit⟩ := hI.root
      have hff : f = f0 := Option.some.inj (hf.symm.trans hf0)
      subst hff
      refine ⟨st, f.initPre ++ pre, f.initChildren ++ body, rfl, hI, ?_⟩
      rw [hnd]
      unfold finalizeNode
      rw [if_pos hdoc]

/-- C7: for every reserved punctuation character X, lexing the two-character
sequence backtick-then-X matches the ESCAPE terminal (not the raw fence),
consumes exactly two source characters (leaving nothing of the two-character
input), and yields exactly the single literal character X. -/
theorem c7_escape_two_chars (X : Char) (hX : X ∈ RESERVED_PUNCTUATION) :
    lexBacktick [backtick, X] = some (.escape X, 2, []) := by
  simp only [RESERVED_PUNCTUATION, List.mem_cons, List.not_mem_nil, or_false] at hX
  rcases hX with rfl | rfl | rfl | rfl | rfl | rfl | rfl <;> decide

/-- Witness for C7 at X = the hash character. -/
theorem c7_escape_two_chars_witness :
    '#' ∈ RESERVED_PUNCTUATION ∧ lexBacktick [backtick, '#'] = some (.escape '#', 2, []) :=
  ⟨by decide, c7_escape_two_chars '#' (by decide)⟩

/-- C5: loadNode is total on any flat node whose element tag is not in the
registry, producing the base-class fallback whose typename is the fixed
sentinel; and whenever it returns a node for a registered tag, that node's
typename is the tag itself. -/
theorem c5_loader_dispatch (obj : ASTObject) :
    (obj.element ∉ registeredTags →
      loadNode obj = some (.defaultNode []) ∧
      (Node.defaultNode []).typename = "default_node") ∧
    (∀ n, loadNode obj = some n → obj.element ∈ registeredTags →
      n.typename = obj.element) := by
  obtain ⟨e, cs, lv, dt, dir, opt, val⟩ := obj
  simp only [ASTObject.element]
  constructor
  · intro h
    refine ⟨?_, rfl⟩
    simp only [loadNode.eq_def]
    split
    all_goals try rfl
    all_goals exfalso; apply h; simp [registeredTags]
  · intro n hn hmem
    simp only [registeredTags, List.mem_cons, List.not_mem_nil, or_false] at hmem
    rcases hmem with rfl | rfl | rfl | rfl | rfl | rfl | rfl | rfl
    · rw [loadNode_document_eq] at hn
      obtain ⟨st, pre, body, _, _, rfl⟩ := assembleDoc_shape hn
      rfl
    · simp only [loadNode] at hn
      cases hl : loadList cs with
      | none => rw [hl] at hn; exact Option.noConfusion hn
      | some label =>
          simp only [hl] at hn
          rw [← Option.some.inj hn]
          rfl
    · simp only [loadNode] at hn
      rw [← Option.some.inj hn]
      rfl
    · simp only [loadNode] at hn
      rw [← Option.some.inj hn]
      rfl
    · simp only [loadNode] at hn
      cases hl : loadList cs with
      | none => rw [hl] at hn; exact Option.noConfusion hn
      | some ns =>
          simp only [hl] at hn
          rw [← Option.some.inj hn]
          rfl
    · simp only [loadNode] at hn
      rw [← Option.some.inj hn]
      rfl
    · simp only [loadNode] at hn
      rw [← Option.some.inj hn]
      rfl
    · simp only [loadNode] at hn
      rw [← Option.some.inj hn]
      rfl

/-- Witness for C5: an unregistered tag loads to the sentinel fallback, and a
registered tag loads to a node carrying the tag as its typename. -/
theorem c5_loader_dispatch_witness :
    ("mystery" ∉ registeredTags ∧
      (loadNode (.mk "mystery" [] none none none none none) = some (.defaultNode []) ∧
        (Node.defaultNode []).typename = "default_node")) ∧
    ("blank_line" ∈ registeredTags ∧
      (Node.blankLine []).typename = "blank_line") :=
  ⟨⟨by decide,
    (c5_loader_dispatch (.mk "mystery" [] none none none none none)).1 (by decide)⟩,
   ⟨by decide,
    (c5_loader_dispatch (.mk "blank_line" [] none none none none none)).2
      (.blankLine []) (by simp [loadNode]) (by decide)⟩⟩

/-- C9: a heading whose level strictly exceeds the current stack top's level
is pushed as the new stack top and recorded in the previous top's children
array (so it nests under the previous top); the very first heading is
compared against the root's level 0, so Scenario A assembles with Sub nested
under Title, Body text under Title and More under Sub. -/
theorem c9_deeper_heading_pushed :
    (∀ (st st' : AsmState) (n : Node) (lvl : Int) (topIdx : Nat) (f : Frame),
      st.stack.head? = some topIdx → st.frames[topIdx]? = some f →
      nodeLevel n = some lvl → f.lvl < lvl →
      stepLoaded st n = some st' →
      st'.stack = st.frames.length :: st.stack ∧
      st'.frames =
        st.frames.set topIdx
          { f with body := f.body ++ [Entry.ref st.frames.length] } ++
          [mkFrame n lvl]) ∧
    assembleDoc scenarioA =
      some (.document []
        [ .heading (some 1) (loadedLabel "Title")
            [ loadedParagraph "Body text",
              .heading (some 2) (loadedLabel "Sub") [loadedParagraph "More"] ] ]) := by
  constructor
  · intro st st' n lvl topIdx f hh hf hnl hlt h
    obtain ⟨topIdx', f', hh', hf', hcase⟩ := stepLoaded_cases h
    obtain rfl : topIdx = topIdx' := Option.some.inj (hh.symm.trans hh')
    obtain rfl : f = f' := Option.some.inj (hf.symm.trans hf')
    rcases hcase with ⟨hnl', _⟩ | ⟨lvl', hnl', hsub⟩
    · rw [hnl] at hnl'; exact Option.noConfusion hnl'
    · obtain rfl : lvl = lvl' := Option.some.inj (hnl.symm.trans hnl')
      rcases hsub with ⟨_, rfl⟩ | ⟨hncmp, _⟩
      · rw [sendFrame_hdr_eq]
        exact ⟨rfl, rfl⟩
      · exact absurd hlt hncmp
  · exact scenarioA_eval

/-- Witness for C9: the first heading of a document (level 1 against the
root's level 0) is pushed onto the stack and recorded in the root's children. -/
theorem c9_deeper_heading_pushed_witness :
    nodeLevel (Node.heading (some 1) [] []) = some 1 ∧
    rootFrame.lvl < 1 ∧
    (⟨[⟨true, 0, [], [], [], [], [Entry.ref 1]⟩,
       mkFrame (Node.heading (some 1) [] []) 1], [1, 0]⟩ : AsmState).stack =
      initState.frames.length :: initState.stack := by
  refine ⟨rfl, by simp [rootFrame], ?_⟩
  have hstep : stepLoaded initState (Node.heading (some 1) [] []) =
      some ⟨[⟨true, 0, [], [], [], [], [Entry.ref 1]⟩,
             mkFrame (Node.heading (some 1) [] []) 1], [1, 0]⟩ := by
    simp [stepLoaded, initState, rootFrame, sendEntry, sendFrame, nodeLevel, mkFrame]
  exact (c9_deeper_heading_pushed.1 initState _ (Node.heading (some 1) [] []) 1 0
    rootFrame rfl rfl rfl (by simp [rootFrame]) hstep).1

/-- C10 (amended): a loaded node is classified as a header exactly when its
level property is defined; among the registered variants both HeadingNode and
DocumentNode define level, so a node loaded from any tag other than
"heading" and "document" is never a header: it is routed to the current
frame's body or preamble and the stack is left unchanged. -/
theorem c10_nonheader_never_pushed (obj : ASTObject)
    (h1 : obj.element ≠ "heading") (h2 : obj.element ≠ "document") :
    ∀ n, loadNode obj = some n →
      isHeaderN n = false ∧
      ∀ (st st' : AsmState), stepLoaded st n = some st' →
        st'.stack = st.stack ∧
        ∃ topIdx f, st.stack.head? = some topIdx ∧ st.frames[topIdx]? = some f ∧
          st'.frames = st.frames.set topIdx (sendFrame f (Entry.node n) false) := by
  obtain ⟨e, cs, lv, dt, dir, opt, val⟩ := obj
  simp only [ASTObject.element] at h1 h2
  intro n hn
  have hnl : nodeLevel n = none := by
    simp only [loadNode.eq_def] at hn
    split at hn
    · exact absurd rfl h2
    · exact absurd rfl h1
    · rw [← Option.some.inj hn]; rfl
    · rw [← Option.some.inj hn]; rfl
    · cases hl : loadList cs with
      | none => rw [hl] at hn; exact Option.noConfusion hn
      | some ns =>
          simp only [hl] at hn
          rw [← Option.some.inj hn]; rfl
    · rw [← Option.some.inj hn]; rfl
    · rw [← Option.some.inj hn]; rfl
    · rw [← Option.some.inj hn]; rfl
    · rw [← Option.some.inj hn]; rfl
  refine ⟨by simp [isHeaderN, hnl], ?_⟩
  intro st st' h
  obtain ⟨topIdx, f, hh, hf, hcase⟩ := stepLoaded_cases h
  rcases hcase with ⟨_, rfl⟩ | ⟨lvl, hnl', _⟩
  · exact ⟨rfl, topIdx, f, hh, hf, rfl⟩
  · rw [hnl] at hnl'; exact Option.noConfusion hnl'

/-- Witness for C10's amended statement: a blank_line node is not a header
and stepping it leaves the stack unchanged. -/
theorem c10_nonheader_never_pushed_witness :
    isHeaderN (Node.blankLine []) = false ∧
    (⟨[⟨true, 0, [], [], [], [Entry.node (Node.blankLine [])], []⟩], [0]⟩ : AsmState).stack
      = initState.stack := by
  have h := c10_nonheader_never_pushed (.mk "blank_line" [] none none none none none)
    (by decide) (by decide) (Node.blankLine []) (by simp [loadNode])
  refine ⟨h.1, ?_⟩
  have hstep : stepLoaded initState (Node.blankLine []) =
      some ⟨[⟨true, 0, [], [], [], [Entry.node (Node.blankLine [])], []⟩], [0]⟩ := by
    simp [stepLoaded, initState, rootFrame, sendEntry, sendFrame, nodeLevel]
  exact (h.2 initState _ hstep).1

/-- C10 counterexample: a flat child tagged "document" - a tag other than
"heading" - loads to a node whose level is defined (0), so the assembler
classifies it as a header, records it in the root's children and pushes it
onto the stack, where it captures the following paragraph into its own
preamble instead of the root's. -/
theorem c10_document_child_pushed :
    assembleSteps initState nestedDocSeq =
      some ⟨[⟨true, 0, [], [], [], [], [Entry.ref 1]⟩,
             ⟨true, 0, [], [], [], [Entry.node (loadedParagraph "p")], []⟩], [1, 0]⟩ ∧
    assembleDoc nestedDocSeq =
      some (.document [] [.document [loadedParagraph "p"] []]) ∧
    isHeaderN (.document [] []) = true :=
  ⟨nestedDocSeq_steps, nestedDocSeq_eval, rfl⟩

/-- C1 (code bug): on Scenario B the assembler calls sendChild on the pre-pop
stack top, so the second level-1 heading B is recorded as a child of the
heading A whose scope it closes: the document's children are [A] with B
nested under A, not the siblings [A, B] required by the claim. -/
theorem c1_sibling_policy_violated :
    assembleDoc scenarioB =
      some (.document []
        [ .heading (some 1) (loadedLabel "A")
            [ .heading (some 1) (loadedLabel "B") [] ] ]) ∧
    assembleDoc scenarioB ≠
      some (.document []
        [ .heading (some 1) (loadedLabel "A") [],
          .heading (some 1) (loadedLabel "B") [] ]) := by
  refine ⟨scenarioB_eval, ?_⟩
  rw [scenarioB_eval]
  simp

/-- C2 (code bug): the assembled tree for two consecutive level-2 headings
contains a heading child whose level equals its heading parent's level, in
violation of the strict level-nesting invariant. -/
theorem c2_level_invariant_violated :
    assembleDoc twoH2 =
      some (.document []
        [ .heading (some 2) (loadedLabel "X")
            [ .heading (some 2) (loadedLabel "Y") [] ] ]) ∧
    nodeLevel (.heading (some 2) (loadedLabel "X")
      [ .heading (some 2) (loadedLabel "Y") [] ]) = some 2 ∧
    nodeLevel (.heading (some 2) (loadedLabel "Y") []) = some 2 ∧
    ¬ ((2 : Int) < 2) :=
  ⟨twoH2_eval, rfl, rfl, by omega⟩

/-- C3 (code bug): the DirectiveNode constructor computes its options from
this.children before ever loading obj.children, so on Scenario D it yields an
empty options mapping instead of mapping "key" to "value". -/
theorem c3_options_not_built :
    loadNode scenarioD = some (.directiveBlock (some "note") none [] []) ∧
    loadNode scenarioD ≠
      some (.directiveBlock (some "note") none [("key", "value")]
        [.directiveOption (some "key") (some "value") []]) := by
  refine ⟨scenarioD_eval, ?_⟩
  rw [scenarioD_eval]
  simp

/-- C4 (code bug): a loaded directive node retains none of its flat children
- its children collection is the untouched empty base-class array - rather
than retaining every loaded child as the claim requires. -/
theorem c4_children_not_retained :
    loadNode directiveTwoChildren = some (.directiveBlock (some "note") none [] []) ∧
    loadNode directiveTwoChildren ≠
      some (.directiveBlock (some "note") none []
        [.directiveOption (some "key") (some "value") [],
         .paragraph [.defaultNode []]]) := by
  refine ⟨directiveTwoChildren_eval, ?_⟩
  rw [directiveTwoChildren_eval]
  simp

-- ===================================================================
-- Totality of assembly over non-negative heading levels (C6)
-- ===================================================================

/-- A possibly-absent level is non-negative when present. -/
def nonnegLvl : Option Int → Bool
  | some l => decide (0 ≤ l)
  | none => true

mutual
/-- Every level field anywhere in the flat object is non-negative. -/
def nonnegO : ASTObject → Bool
  | .mk _ cs lv _ _ _ _ => nonnegLvl lv && nonnegL cs
termination_by o => sizeOf o

def nonnegC : ASTChild → Bool
  | .str _ => true
  | .node o => nonnegO o
termination_by c => sizeOf c

def nonnegL : List ASTChild → Bool
  | [] => true
  | c :: cs => nonnegC c && nonnegL cs
termination_by cs => sizeOf cs
end

theorem popLoop_total {lvl : Int} {frames : List Frame} (h0 : 0 ≤ lvl)
    (hroot : ∃ f0, frames[0]? = some f0 ∧ f0.lvl = 0) :
    ∀ (s : List Nat), s ≠ [] → (∀ i ∈ s, i < frames.length) →
      s.getLast? = some 0 →
      ∃ s', popLoop lvl frames s = some s' := by
  intro s
  induction s with
  | nil => intro h; exact absurd rfl h
  | cons i rest ih =>
      intro _ hvalid hlast
      have hi : i < frames.length := hvalid i (List.mem_cons_self i rest)
      obtain ⟨f, hf⟩ : ∃ f, frames[i]? = some f :=
        ⟨frames[i], List.getElem?_eq_getElem hi⟩
      by_cases hlt : lvl < f.lvl
      · cases rest with
        | nil =>
            have hi0 : i = 0 := by simpa using hlast
            subst hi0
            obtain ⟨f0, hf0, hlvl0⟩ := hroot
            have hff : f = f0 := Option.some.inj (hf.symm.trans hf0)
            subst hff
            omega
        | cons j rest2 =>
            obtain ⟨s', hs'⟩ := ih (by simp)
              (fun k hk => hvalid k (List.mem_cons_of_mem i hk))
              (by rw [← hlast]; exact (List.getLast?_cons_cons).symm)
            refine ⟨s', ?_⟩
            rw [popLoop]
            simp only [hf]
            rw [if_pos hlt]
            exact hs'
      · refine ⟨i :: rest, ?_⟩
        rw [popLoop]
        simp only [hf]
        rw [if_neg hlt]

theorem stepLoaded_total {st : AsmState} {n : Node} (hI : AsmInv st)
    (hlvl : ∀ l, nodeLevel n = some l → 0 ≤ l) :
    ∃ st', stepLoaded st n = some st' := by
  obtain ⟨topIdx, rest, hstk⟩ : ∃ t r, st.stack = t :: r := by
    cases hs : st.stack with
    | nil => exact absurd hs hI.ne
    | cons t r => exact ⟨t, r, rfl⟩
  have hh : st.stack.head? = some topIdx := by rw [hstk]; rfl
  have hti : topIdx < st.frames.length :=
    hI.valid topIdx (by rw [hstk]; exact List.mem_cons_self _ _)
  obtain ⟨f, hf⟩ : ∃ f, st.frames[topIdx]? = some f :=
    ⟨st.frames[topIdx], List.getElem?_eq_getElem hti⟩
  obtain ⟨f0, hf0, hf0doc, hf0lvl, hf0init⟩ := hI.root
  cases hnl : nodeLevel n with
  | none =>
      refine ⟨⟨st.frames.set topIdx (sendFrame f (.node n) false), st.stack⟩, ?_⟩
      simp only [stepLoaded, hh, hnl, sendEntry, hf]
  | some lvl =>
      have h0 : 0 ≤ lvl := hlvl lvl hnl
      have h2 : (st.frames.set topIdx (sendFrame f (.ref st.frames.length) true) ++
          [mkFrame n lvl])[topIdx]? =
          some (sendFrame f (.ref st.frames.length) true) := by
        rw [List.getElem?_append_left (by simpa using hti)]
        exact List.getElem?_set_self (by simpa using hti)
      have hroot2 : ∃ g, (st.frames.set topIdx
          (sendFrame f (.ref st.frames.length) true) ++
            [mkFrame n lvl])[0]? = some g ∧ g.lvl = 0 := by
        by_cases hz : topIdx = 0
        · subst hz
          have hff : f0 = f := Option.some.inj (hf0.symm.trans hf)
          subst hff
          refine ⟨sendFrame f0 (.ref st.frames.length) true, ?_, ?_⟩
          · rw [List.getElem?_append_left (by simpa using hti)]
            exact List.getElem?_set_self (by simpa using hti)
          · rw [sendFrame_lvl]; exact hf0lvl
        · refine ⟨f0, ?_, hf0lvl⟩
          rw [List.getElem?_append_left (by simp; omega)]
          simpa [List.getElem?_set_ne hz] using hf0
      by_cases hcmp : f.lvl < lvl
      · refine ⟨⟨st.frames.set topIdx (sendFrame f (.ref st.frames.length) true) ++
            [mkFrame n lvl], st.frames.length :: st.stack⟩, ?_⟩
        simp only [stepLoaded, hh, hnl, sendEntry, hf, h2, sendFrame_lvl, gt_iff_lt]
        rw [if_pos hcmp]
      · obtain ⟨s', hs'⟩ := popLoop_total h0 hroot2 st.stack hI.ne
          (by
            intro i hiMem
            have := hI.valid i hiMem
            simp
            omega)
          hI.lastZero
        refine ⟨⟨st.frames.set topIdx (sendFrame f (.ref st.frames.length) true) ++
            [mkFrame n lvl], st.frames.length :: s'⟩, ?_⟩
        simp only [stepLoaded, hh, hnl, sendEntry, hf, h2, sendFrame_lvl, gt_iff_lt]
        rw [if_neg hcmp]
        simp only [hs']

theorem sizeOf_ASTObject_pos (o : ASTObject) : 0 < sizeOf o := by
  cases o; simp_arith

theorem sizeOf_ASTChild_pos (c : ASTChild) : 0 < sizeOf c := by
  cases c <;> simp_arith

theorem sizeOf_ASTChild_list_pos (cs : List ASTChild) : 0 < sizeOf cs := by
  cases cs <;> simp_arith

theorem load_total_aux :
    ∀ (k : Nat),
      (∀ (o : ASTObject), sizeOf o ≤ k → nonnegO o = true →
        ∃ n, loadNode o = some n ∧ ∀ l, nodeLevel n = some l → 0 ≤ l) ∧
      (∀ (c : ASTChild), sizeOf c ≤ k → nonnegC c = true →
        ∃ n, loadChild c = some n ∧ ∀ l, nodeLevel n = some l → 0 ≤ l) ∧
      (∀ (cs : List ASTChild), sizeOf cs ≤ k → nonnegL cs = true →
        (∃ ns, loadList cs = some ns) ∧
        (∀ (st : AsmState), AsmInv st → ∃ st', assembleSteps st cs = some st')) := by
  intro k
  induction k with
  | zero =>
      refine ⟨?_, ?_, ?_⟩
      · intro o ho
        exact absurd ho (by have := sizeOf_ASTObject_pos o; omega)
      · intro c hc
        exact absurd hc (by have := sizeOf_ASTChild_pos c; omega)
      · intro cs hcs
        exact absurd hcs (by have := sizeOf_ASTChild_list_pos cs; omega)
  | succ k ih =>
      obtain ⟨ihO, ihC, ihL⟩ := ih
      refine ⟨?_, ?_, ?_⟩
      · intro o ho hneg
        obtain ⟨e, cs, lv, dt, dir, opt, val⟩ := o
        have hcs : sizeOf cs ≤ k := by
          simp_arith at ho
          omega
        have hneg2 := hneg
        rw [nonnegO, Bool.and_eq_true] at hneg2
        obtain ⟨hneglv, hnegcs⟩ := hneg2
        have hlvOk : ∀ l, lv = some l → 0 ≤ l := by
          intro l hl
          subst hl
          simpa [nonnegLvl] using hneglv
        simp only [loadNode.eq_def]
        split
        · -- document
          obtain ⟨-, hsteps⟩ := ihL cs hcs hnegcs
          obtain ⟨st', hst'⟩ := hsteps initState asmInv_init
          have hI := assembleSteps_inv asmInv_init hst'
          obtain ⟨f0, hf0, hf0doc, hf0lvl, hf0init⟩ := hI.root
          have h0 : 0 < st'.frames.length := (List.getElem?_eq_some.mp hf0).1
          obtain ⟨nd, hnd⟩ := resolveEntry_ref_isSome hI.good
            (st'.frames.length + 1) 0 h0 (by omega)
          refine ⟨nd, by rw [hst']; exact hnd, ?_⟩
          obtain ⟨f, pre, body, hf, hshape, -⟩ := resolveEntry_ref_shape hnd
          have hff : f = f0 := Option.some.inj (hf.symm.trans hf0)
          subst hff
          subst hshape
          unfold finalizeNode
          rw [if_pos hf0doc]
          intro l hl
          simp [nodeLevel] at hl
          omega
        · -- heading
          obtain ⟨⟨ns, hns⟩, -⟩ := ihL cs hcs hnegcs
          refine ⟨.heading lv ns [], by rw [hns], ?_⟩
          intro l hl
          exact hlvOk l hl
        · exact ⟨_, rfl, by intro l hl; exact Option.noConfusion hl⟩
        · exact ⟨_, rfl, by intro l hl; exact Option.noConfusion hl⟩
        · -- paragraph
          obtain ⟨⟨ns, hns⟩, -⟩ := ihL cs hcs hnegcs
          exact ⟨.paragraph ns, by rw [hns], by intro l hl; exact Option.noConfusion hl⟩
        · exact ⟨_, rfl, by intro l hl; exact Option.noConfusion hl⟩
        · exact ⟨_, rfl, by intro l hl; exact Option.noConfusion hl⟩
        · exact ⟨_, rfl, by intro l hl; exact Option.noConfusion hl⟩
        · exact ⟨_, rfl, by intro l hl; exact Option.noConfusion hl⟩
      · intro c hc hneg
        cases c with
        | str s =>
            exact ⟨.defaultNode [], by rw [loadChild],
              by intro l hl; exact Option.noConfusion hl⟩
        | node o =>
            have ho : sizeOf o ≤ k := by
              simp_arith at hc
              omega
            have hnego : nonnegO o = true := by
              have h := hneg
              rw [nonnegC] at h
              exact h
            obtain ⟨n, hn, hlv⟩ := ihO o ho hnego
            exact ⟨n, by rw [loadChild]; exact hn, hlv⟩
      · intro cs hcs hneg
        cases cs with
        | nil =>
            refine ⟨⟨[], by rw [loadList]⟩, ?_⟩
            intro st hI
            exact ⟨st, by rw [assembleSteps]⟩
        | cons c cs2 =>
            have hc : sizeOf c ≤ k := by
              simp_arith at hcs
              omega
            have hcs2 : sizeOf cs2 ≤ k := by
              simp_arith at hcs
              omega
            have hneg2 := hneg
            rw [nonnegL, Bool.and_eq_true] at hneg2
            obtain ⟨hnegc, hnegcs2⟩ := hneg2
            obtain ⟨n, hn, hlv⟩ := ihC c hc hnegc
            obtain ⟨⟨ns, hns⟩, hsteps⟩ := ihL cs2 hcs2 hnegcs2
            constructor
            · refine ⟨n :: ns, ?_⟩
              rw [loadList]
              simp only [hn, hns]
            · intro st hI
              obtain ⟨st1, hst1⟩ := stepLoaded_total hI hlv
              obtain ⟨st', hst'⟩ := hsteps st1 (stepLoaded_inv hI hst1)
              refine ⟨st', ?_⟩
              rw [assembleSteps]
              simp only [hn, hst1]
              exact hst'

/-- C6: for every top-level flat child sequence whose heading levels are all
non-negative, document assembly is total: the step loop completes (the stack
top is always defined and the pop loop never empties the stack), the
document root frame remains at the bottom of the stack throughout, and the
whole DocumentNode construction returns a node. -/
theorem c6_assembly_total (cs : List ASTChild) (h : nonnegL cs = true) :
    (∃ st', assembleSteps initState cs = some st' ∧
       st'.stack ≠ [] ∧ st'.stack.getLast? = some 0) ∧
    (∃ nd, assembleDoc cs = some nd) := by
  obtain ⟨-, -, ihL⟩ := load_total_aux (sizeOf cs)
  obtain ⟨-, hsteps⟩ := ihL cs le_rfl h
  obtain ⟨st', hst'⟩ := hsteps initState asmInv_init
  have hI := assembleSteps_inv asmInv_init hst'
  refine ⟨⟨st', hst', hI.ne, hI.lastZero⟩, ?_⟩
  obtain ⟨f0, hf0, -, -, -⟩ := hI.root
  have h0 : 0 < st'.frames.length := (List.getElem?_eq_some.mp hf0).1
  obtain ⟨nd, hnd⟩ := resolveEntry_ref_isSome hI.good
    (st'.frames.length + 1) 0 h0 (by omega)
  refine ⟨nd, ?_⟩
  unfold assembleDoc
  rw [hst']
  exact hnd

/-- Witness for C6: Scenario A's sequence has non-negative heading levels and
its assembly completes with the root still at the stack bottom. -/
theorem c6_assembly_total_witness :
    nonnegL scenarioA = true ∧
    ((∃ st', assembleSteps initState scenarioA = some st' ∧
       st'.stack ≠ [] ∧ st'.stack.getLast? = some 0) ∧
     (∃ nd, assembleDoc scenarioA = some nd)) :=
  ⟨by simp [scenarioA, nonnegL, nonnegC, nonnegO, nonnegLvl, flatHeading, flatParagraph],
   c6_assembly_total scenarioA
     (by simp [scenarioA, nonnegL, nonnegC, nonnegO, nonnegLvl, flatHeading, flatParagraph])⟩

-- ===================================================================
-- Preamble separation (C8)
-- ===================================================================

/-- Does this flat child load to a header node? -/
def isHeaderChildB (c : ASTChild) : Bool :=
  match loadChild c with
  | some n => isHeaderN n
  | none => false

/-- The assembly state before any header has been processed: only the root
frame, whose preamble holds the loaded non-header nodes seen so far. -/
def stP (acc : List Node) : AsmState :=
  ⟨[⟨true, 0, [], [], [], acc.map Entry.node, []⟩], [0]⟩

theorem stP_nil : stP [] = initState := rfl

theorem asmInv_stP (acc : List Node) : AsmInv (stP acc) := by
  refine ⟨by simp [stP], ?_, by simp [stP], ?_, ?_, ?_⟩
  · intro i hi
    simp [stP] at hi
    simp [stP, hi]
  · exact ⟨⟨true, 0, [], [], [], acc.map Entry.node, []⟩, by simp [stP], rfl, rfl, rfl⟩
  · intro i f hf
    cases i with
    | zero =>
        simp [stP] at hf
        subst hf
        constructor
        · intro e he j
          simp at he
          obtain ⟨m, -, rfl⟩ := he
          simp
        · intro j hj
          simp at hj
    | succ m => simp [stP] at hf
  · intro i f hf hdoc
    cases i with
    | zero =>
        simp [stP] at hf
        subst hf
        intro e he
        simp at he
    | succ m => simp [stP] at hf

theorem stepLoaded_stP_nonheader (acc : List Node) {n : Node}
    (hnl : nodeLevel n = none) :
    stepLoaded (stP acc) n = some (stP (acc ++ [n])) := by
  simp [stepLoaded, stP, hnl, sendEntry, sendFrame]

theorem stepLoaded_stP_header {acc : List Node} {n : Node} {lvl : Int} {st' : AsmState}
    (hnl : nodeLevel n = some lvl) (h : stepLoaded (stP acc) n = some st') :
    st' = ⟨[⟨true, 0, [], [], [], acc.map Entry.node, [Entry.ref 1]⟩,
            mkFrame n lvl], [1, 0]⟩ := by
  by_cases h1 : (0 : Int) < lvl
  · have hcomp : stepLoaded (stP acc) n =
        some ⟨[⟨true, 0, [], [], [], acc.map Entry.node, [Entry.ref 1]⟩,
               mkFrame n lvl], [1, 0]⟩ := by
      simp [stepLoaded, stP, hnl, sendEntry, sendFrame, h1]
    rw [hcomp] at h
    exact (Option.some.inj h).symm
  · by_cases h2 : lvl < 0
    · have hcomp : stepLoaded (stP acc) n = none := by
        simp [stepLoaded, stP, hnl, sendEntry, sendFrame, popLoop, h2]
        omega
      rw [hcomp] at h
      exact Option.noConfusion h
    · have hcomp : stepLoaded (stP acc) n =
          some ⟨[⟨true, 0, [], [], [], acc.map Entry.node, [Entry.ref 1]⟩,
                 mkFrame n lvl], [1, 0]⟩ := by
        simp [stepLoaded, stP, hnl, sendEntry, sendFrame, popLoop, h1, h2]
      rw [hcomp] at h
      exact (Option.some.inj h).symm

/-- Once the stack top is a pushed frame (index at least 1), all further
steps keep it so and never touch the root frame again. -/
theorem assembleSteps_head_pos :
    ∀ {cs : List ASTChild} {st st' : AsmState}, AsmInv st →
      (∀ k, st.stack.head? = some k → 1 ≤ k) →
      assembleSteps st cs = some st' →
      st'.frames[0]? = st.frames[0]? := by
  intro cs
  induction cs with
  | nil =>
      intro st st' _ _ h
      simp only [assembleSteps] at h
      rw [← Option.some.inj h]
  | cons c cs ih =>
      intro st st' hI hhead h
      simp only [assembleSteps] at h
      cases hl : loadChild c with
      | none => rw [hl] at h; exact Option.noConfusion h
      | some n =>
          simp only [hl] at h
          cases hs : stepLoaded st n with
          | none => simp only [hs] at h; exact Option.noConfusion h
          | some st1 =>
              simp only [hs] at h
              obtain ⟨topIdx, f, hh, hf, hcase⟩ := stepLoaded_cases hs
              have htop1 : 1 ≤ topIdx := hhead topIdx hh
              have hlen0 : 0 < st.frames.length := by
                obtain ⟨f0, hf0, -, -, -⟩ := hI.root
                exact (List.getElem?_eq_some.mp hf0).1
              have hI1 : AsmInv st1 := stepLoaded_inv hI hs
              rcases hcase with ⟨hnl, rfl⟩ | ⟨lvl, hnl, hsub⟩
              · have h0 : (st.frames.set topIdx
                    (sendFrame f (Entry.node n) false))[0]? = st.frames[0]? :=
                  List.getElem?_set_ne (by omega)
                rw [ih hI1 (by simpa using hhead) h]
                exact h0
              · have h0 : (st.frames.set topIdx
                    (sendFrame f (Entry.ref st.frames.length) true) ++
                      [mkFrame n lvl])[0]? = st.frames[0]? := by
                  rw [List.getElem?_append_left (by simp; omega)]
                  exact List.getElem?_set_ne (by omega)
                rcases hsub with ⟨-, rfl⟩ | ⟨-, stack', -, rfl⟩
                · rw [ih hI1 (by intro k hk; simp at hk; omega) h]
                  exact h0
                · rw [ih hI1 (by intro k hk; simp at hk; omega) h]
                  exact h0

theorem resolveList_map_node (frames : List Frame) (fuel : Nat) :
    ∀ (ns : List Node), resolveList frames fuel (ns.map Entry.node) = some ns := by
  intro ns
  induction ns with
  | nil => rw [List.map_nil, resolveList]
  | cons x xs ih =>
      rw [List.map_cons, resolveList, resolveEntry_node, ih]

theorem resolveList_mem {frames : List Frame} {fuel : Nat} :
    ∀ {es : List Entry} {ns : List Node}, resolveList frames fuel es = some ns →
      ∀ x ∈ ns, ∃ e ∈ es, resolveEntry frames fuel e = some x := by
  intro es
  induction es with
  | nil =>
      intro ns h x hx
      rw [resolveList] at h
      rw [← Option.some.inj h] at hx
      simp at hx
  | cons e es ih =>
      intro ns h x hx
      rw [resolveList] at h
      cases he : resolveEntry frames fuel e with
      | none => rw [he] at h; exact Option.noConfusion h
      | some m =>
          simp only [he] at h
          cases hes : resolveList frames fuel es with
          | none => simp only [hes] at h; exact Option.noConfusion h
          | some ms =>
              simp only [hes] at h
              rw [← Option.some.inj h] at hx
              rcases List.mem_cons.mp hx with rfl | hx2
              · exact ⟨e, List.mem_cons_self e es, he⟩
              · obtain ⟨e2, he2mem, he2⟩ := ih hes x hx2
                exact ⟨e2, List.mem_cons_of_mem e he2mem, he2⟩

/-- Assembly from a preamble-phase state: the loaded non-header prefix ends
up in the root frame's preamble, and the root keeps its other fields. -/
theorem assembleSteps_stP :
    ∀ (cs : List ASTChild) (acc : List Node) (st' : AsmState),
      assembleSteps (stP acc) cs = some st' →
      ∃ pns, (cs.takeWhile (fun c => !(isHeaderChildB c))).mapM loadChild = some pns ∧
        ∃ f0, st'.frames[0]? = some f0 ∧
          f0.pre = (acc ++ pns).map Entry.node ∧
          f0.isDoc = true ∧ f0.initPre = [] ∧ f0.initChildren = [] := by
  intro cs
  induction cs with
  | nil =>
      intro acc st' h
      simp only [assembleSteps] at h
      refine ⟨[], rfl, ?_⟩
      rw [← Option.some.inj h]
      exact ⟨⟨true, 0, [], [], [], acc.map Entry.node, []⟩, by simp [stP],
        by simp, rfl, rfl, rfl⟩
  | cons c cs ih =>
      intro acc st' h
      simp only [assembleSteps] at h
      cases hl : loadChild c with
      | none => rw [hl] at h; exact Option.noConfusion h
      | some n =>
          simp only [hl] at h
          cases hs : stepLoaded (stP acc) n with
          | none => simp only [hs] at h; exact Option.noConfusion h
          | some st1 =>
              simp only [hs] at h
              cases hnl : nodeLevel n with
              | none =>
                  have hst1 : st1 = stP (acc ++ [n]) := by
                    have := stepLoaded_stP_nonheader acc hnl
                    rw [hs] at this
                    exact Option.some.inj this
                  subst hst1
                  obtain ⟨pns, hpns, f0, hf0, hpre, hdoc, hip, hic⟩ := ih (acc ++ [n]) st' h
                  have hhc : isHeaderChildB c = false := by
                    simp [isHeaderChildB, hl, isHeaderN, hnl]
                  refine ⟨n :: pns, ?_, f0, hf0, ?_, hdoc, hip, hic⟩
                  · rw [List.takeWhile_cons, hhc]
                    simp only [Bool.not_false, if_pos]
                    rw [List.mapM_cons, hl, hpns]
                    rfl
                  · rw [hpre]
                    simp
              | some lvl =>
                  have hst1 := stepLoaded_stP_header hnl hs
                  subst hst1
                  have hhc : isHeaderChildB c = true := by
                    simp [isHeaderChildB, hl, isHeaderN, hnl]
                  have hI1 : AsmInv ⟨[⟨true, 0, [], [], [], acc.map Entry.node,
                      [Entry.ref 1]⟩, mkFrame n lvl], [1, 0]⟩ :=
                    stepLoaded_inv (asmInv_stP acc) hs
                  have hf0 := assembleSteps_head_pos hI1
                    (by intro k hk; simp at hk; omega) h
                  refine ⟨[], ?_, ?_⟩
                  · rw [List.takeWhile_cons, hhc]
                    rfl
                  · refine ⟨⟨true, 0, [], [], [], acc.map Entry.node, [Entry.ref 1]⟩,
                      ?_, by simp, rfl, rfl, rfl⟩
                    rw [hf0]
                    rfl

/-- C8: in every assembled document, the loaded non-header prefix of the
top-level sequence is exactly the document's preamble, and every member of
the document's children collection is a header. -/
theorem c8_preamble_separation {cs : List ASTChild} {pre ch : List Node}
    (h : assembleDoc cs = some (.document pre ch)) :
    ((cs.takeWhile (fun c => !(isHeaderChildB c))).mapM loadChild = some pre) ∧
    (∀ n ∈ ch, isHeaderN n = true) := by
  unfold assembleDoc at h
  cases hs : assembleSteps initState cs with
  | none => rw [hs] at h; exact Option.noConfusion h
  | some st =>
      simp only [hs] at h
      have hI : AsmInv st := assembleSteps_inv asmInv_init hs
      have hs' : assembleSteps (stP []) cs = some st := by rw [stP_nil]; exact hs
      obtain ⟨pns, hpns, f0, hf0, hpre0, hdoc0, hip0, hic0⟩ :=
        assembleSteps_stP cs [] st hs'
      obtain ⟨f, preR, bodyR, hf, hshape, fuel', hpreR, hbodyR⟩ :=
        resolveEntry_ref_shape h
      have hff : f = f0 := Option.some.inj (hf.symm.trans hf0)
      subst hff
      have hfin : Node.document pre ch = .document (f.initPre ++ preR)
          (f.initChildren ++ bodyR) := by
        rw [hshape]
        unfold finalizeNode
        rw [if_pos hdoc0]
      rw [hip0, hic0] at hfin
      simp only [List.nil_append, Node.document.injEq] at hfin
      obtain ⟨rfl, rfl⟩ := hfin
      constructor
      · rw [hpre0] at hpreR
        simp only [List.nil_append] at hpreR
        rw [resolveList_map_node] at hpreR
        rw [hpns]
        exact congrArg some (Option.some.inj hpreR)
      · intro n hn
        obtain ⟨e, hemem, he⟩ := resolveList_mem hbodyR n hn
        obtain ⟨j, rfl⟩ := hI.docBody 0 f hf0 hdoc0 e hemem
        obtain ⟨g, gpre, gbody, -, hgshape, -⟩ := resolveEntry_ref_shape he
        rw [hgshape]
        exact finalizeNode_isHeader g gpre gbody

/-- Witness for C8 at Scenario A: the prefix before the first heading is
empty, the preamble is empty, and the document's only child is a header. -/
theorem c8_preamble_separation_witness :
    ((scenarioA.takeWhile (fun c => !(isHeaderChildB c))).mapM loadChild =
      some ([] : List Node)) ∧
    (∀ n ∈ [Node.heading (some 1) (loadedLabel "Title")
        [ loadedParagraph "Body text",
          Node.heading (some 2) (loadedLabel "Sub") [loadedParagraph "More"] ]],
      isHeaderN n = true) :=
  c8_preamble_separation scenarioA_eval

/-- Is this loaded node a HeadingNode?  This is the narrow sense of
"heading"; the assembler's own classification (isHeaderN) is wider, since a
DocumentNode's level is also defined. -/
def isHeadingNode : Node → Bool
  | .heading _ _ _ => true
  | _ => false

/-- C8 counterexample: on a top-level sequence whose children are a
document-tagged node followed by a paragraph - both non-headings, both
appearing before any heading - the assembled root's preamble is empty (the
paragraph ends up inside the nested document's preamble instead) and the
root's children collection receives the non-heading document node.  Both
parts of the claim fail: a pre-heading non-heading node is not in the root's
preamble, and children holds a node that is not a heading. -/
theorem c8_children_gets_nonheading :
    assembleDoc nestedDocSeq =
      some (.document [] [.document [loadedParagraph "p"] []]) ∧
    isHeadingNode (.document [loadedParagraph "p"] []) = false ∧
    isHeadingNode (loadedParagraph "p") = false :=
  ⟨nestedDocSeq_eval, rfl, rfl⟩
